import Mathlib

/-!
Verification of the SoundCloud MP3 downloader server (TypeScript sources:
`src/index.ts` and the concatenated revisions in `unnamed/part_000`).

Strings are modelled as `List Char` (one element per UTF-16 code unit of the
JavaScript string; all characters involved are in the basic plane, where the
two notions agree).  Numbers that JavaScript handles as floating point doubles
(progress percentages and their linear remaps) are modelled exactly as
rationals `ℚ`; the remap coefficients (0.7, 0.8, …) are the corresponding
exact rationals.
-/

/-- The character class of the JavaScript regex `\s` (which for the characters
occurring here coincides with the set trimmed by `String.prototype.trim`):
WhiteSpace plus LineTerminator. -/
def jsIsSpace (c : Char) : Bool :=
  c = ' ' || c = '\t' || c = '\n' || c.val = 11 || c.val = 12 || c = '\r' ||
  c.val = 160 || c.val = 0x1680 || (0x2000 ≤ c.val && c.val ≤ 0x200A) ||
  c.val = 0x2028 || c.val = 0x2029 || c.val = 0x202F || c.val = 0x205F ||
  c.val = 0x3000 || c.val = 0xFEFF

/-- JavaScript regex line terminators — the characters NOT matched by `.`. -/
def lineTerminator (c : Char) : Bool :=
  c = '\n' || c = '\r' || c.val = 0x2028 || c.val = 0x2029

/-- The characters removed by `sanitizeFilename`'s first step,
`replace(/[<>:"\/\\|?*]/g, '')`. -/
def reservedChars : List Char := ['<', '>', ':', '"', '/', '\\', '|', '?', '*']

/-- `replace(/\s+/g, ' ')`: every maximal run of whitespace characters becomes
a single `' '`.  The boolean argument records whether the previous input
character was whitespace (i.e. whether we are inside a run that has already
emitted its `' '`). -/
def collapseSpacesAux : Bool → List Char → List Char
  | _, [] => []
  | true, c :: rest =>
    cond (jsIsSpace c) (collapseSpacesAux true rest) (c :: collapseSpacesAux false rest)
  | false, c :: rest =>
    cond (jsIsSpace c) (' ' :: collapseSpacesAux true rest) (c :: collapseSpacesAux false rest)

def collapseSpaces (s : List Char) : List Char := collapseSpacesAux false s

/-- `replace(/\.{2,}/g, '.')`: every maximal run of two or more dots becomes a
single dot (a lone dot is already a single dot, so every maximal dot run
collapses to one dot). -/
def collapseDotsAux : Bool → List Char → List Char
  | _, [] => []
  | true, c :: rest =>
    cond (c == '.') (collapseDotsAux true rest) (c :: collapseDotsAux false rest)
  | false, c :: rest =>
    cond (c == '.') ('.' :: collapseDotsAux true rest) (c :: collapseDotsAux false rest)

def collapseDots (s : List Char) : List Char := collapseDotsAux false s

/-- `String.prototype.trim`: drop leading and trailing whitespace. -/
def jsTrimEnd (s : List Char) : List Char := (s.reverse.dropWhile jsIsSpace).reverse

def jsTrim (s : List Char) : List Char := jsTrimEnd (s.dropWhile jsIsSpace)

/-- `SoundCloudDownloader.sanitizeFilename` (identical in every revision):

    filename
      .replace(/[<>:"\/\\|?*]/g, '')
      .replace(/\s+/g, ' ')
      .replace(/\.{2,}/g, '.')
      .trim()
      .substring(0, 200)
-/
def sanitizeFilename (s : List Char) : List Char :=
  (jsTrim (collapseDots (collapseSpaces
    (s.filter (fun c => decide (c ∉ reservedChars)))))).take 200

/-- No two adjacent whitespace characters (used to state the no-double-space
invariant of the sanitizer). -/
def notTwoSpaces (a b : Char) : Prop := ¬(jsIsSpace a = true ∧ jsIsSpace b = true)

/-- No two adjacent dots. -/
def notTwoDots (a b : Char) : Prop := ¬(a = '.' ∧ b = '.')

/-! ### URL validation -/

def httpsTag : List Char := "https://".toList

def httpTag : List Char := "http://".toList

def wwwTag : List Char := "www.".toList

def scHostTag : List Char := "soundcloud.com/".toList

/-- After `soundcloud.com/` the regex requires `.+`: at least one character,
and (since JS `.` excludes line terminators) the character matched first must
not be a line terminator. -/
def restOk : List Char → Bool
  | [] => false
  | c :: _ => !lineTerminator c

def scPathOk (s : List Char) : Bool :=
  scHostTag.isPrefixOf s && restOk (s.drop 15)

def hostOk (s : List Char) : Bool :=
  scPathOk s || (wwwTag.isPrefixOf s && scPathOk (s.drop 4))

/-- `SoundCloudDownloader.isValidSoundCloudUrl`:
`/^https?:\/\/(www\.)?soundcloud\.com\/.+/.test(url)`. -/
def isValidSoundCloudUrl (url : List Char) : Bool :=
  (httpsTag.isPrefixOf url && hostOk (url.drop 8)) ||
  (httpTag.isPrefixOf url && hostOk (url.drop 7))

/-- Substring containment (`String.prototype.includes`). -/
def containsSub (pat : List Char) : List Char → Bool
  | [] => pat.isEmpty
  | c :: rest => pat.isPrefixOf (c :: rest) || containsSub pat rest

/-- `SoundCloudDownloader.isPlaylistUrl`: `url.includes('/sets/')`. -/
def isPlaylistUrl (url : List Char) : Bool := containsSub "/sets/".toList url

/-- The URL pattern in the WORDS of the spec sentence behind C8: scheme http
or https, optional `www.`, host `soundcloud.com`, and a non-empty path. -/
def specUrlPattern (url : List Char) : Prop :=
  ∃ (secure www : Bool) (rest : List Char),
    rest ≠ [] ∧
    url = (cond secure httpsTag httpTag) ++ (cond www wwwTag []) ++ scHostTag ++ rest

/-- The amended pattern: as `specUrlPattern`, but the first path character must
additionally not be a line terminator (JS `.` does not match line
terminators). -/
def amendedUrlPattern (url : List Char) : Prop :=
  ∃ (secure www : Bool) (c : Char) (rest : List Char),
    lineTerminator c = false ∧
    url = (cond secure httpsTag httpTag) ++ (cond www wwwTag []) ++ scHostTag ++ c :: rest

/-! ### Output parsing: the regexes of the stdout handlers (third revision) -/

/-- `parseInt`/`parseFloat` integer part of a digit run. -/
def digitsToNat (ds : List Char) : Nat := ds.foldl (fun n c => 10 * n + (c.toNat - 48)) 0

def dlTag : List Char := "[download]".toList

def extractTag : List Char := "[ExtractAudio]".toList

def extractDestTag : List Char := "[ExtractAudio] Destination: ".toList

def dlDestTag : List Char := "[download] Destination: ".toList

def itemTag : List Char := "[download] Downloading item ".toList

def ofTag : List Char := " of ".toList

def deletingTag : List Char := "Deleting original file".toList

def mp3Suffix : List Char := ".mp3".toList

/-- The part of `/\[download\]\s+(\d+(?:\.\d+)?)%/` after the literal tag:
one or more whitespace characters, a digit run, optionally a dot and a second
digit run, then `%`.  (No backtracking can succeed beyond this greedy reading:
shrinking a digit run leaves the next character a digit, never `%`.)  Returns
the `parseFloat` value of the capture, exactly, as a rational. -/
def percentAfter (s : List Char) : Option ℚ :=
  if (s.takeWhile jsIsSpace).isEmpty then none
  else
    let s1 := s.dropWhile jsIsSpace
    let d1 := s1.takeWhile Char.isDigit
    if d1.isEmpty then none
    else
      match s1.dropWhile Char.isDigit with
      | '.' :: s3 =>
        let d2 := s3.takeWhile Char.isDigit
        if d2.isEmpty then none
        else
          match s3.dropWhile Char.isDigit with
          | '%' :: _ => some ((digitsToNat d1 : ℚ) + (digitsToNat d2 : ℚ) / 10 ^ d2.length)
          | _ => none
      | '%' :: _ => some ((digitsToNat d1 : ℚ))
      | _ => none

/-- `output.match(/\[download\]\s+(\d+(?:\.\d+)?)%/)`: scan left to right for
a `[download]` occurrence followed by the percent pattern; like the regex
engine, when the pattern fails at one start position the scan continues from
the next. -/
def findDownloadMatch : List Char → Option ℚ
  | [] => none
  | c :: rest =>
    match (if dlTag.isPrefixOf (c :: rest) then percentAfter ((c :: rest).drop 10) else none) with
    | some p => some p
    | none => findDownloadMatch rest

/-- The part of `/\[download\] Downloading item (\d+) of (\d+)/` after the
literal tag. -/
def itemAfter (s : List Char) : Option (Nat × Nat) :=
  let d1 := s.takeWhile Char.isDigit
  if d1.isEmpty then none
  else
    let s1 := s.dropWhile Char.isDigit
    if ofTag.isPrefixOf s1 then
      let d2 := (s1.drop 4).takeWhile Char.isDigit
      if d2.isEmpty then none else some (digitsToNat d1, digitsToNat d2)
    else none

def findItemMatch : List Char → Option (Nat × Nat)
  | [] => none
  | c :: rest =>
    match (if itemTag.isPrefixOf (c :: rest) then itemAfter ((c :: rest).drop 28) else none) with
    | some r => some r
    | none => findItemMatch rest

/-- The capture of `(.+\.mp3)`: the longest run of non-line-terminator
characters starting here that ends in `.mp3` and has at least one character
before the suffix (greedy `.+`). -/
def captureMp3 (s : List Char) : Option (List Char) :=
  let seg := s.takeWhile (fun c => !lineTerminator c)
  let ls := (List.range (seg.length + 1)).filter
    (fun i => decide (5 ≤ i) && mp3Suffix.isSuffixOf (seg.take i))
  match ls with
  | [] => none
  | _ => some (seg.take (ls.foldl max 0))

/-- `output.match(/\[ExtractAudio\] Destination: (.+\.mp3)/)`, returning the
captured group (which includes the `.mp3` suffix). -/
def findDestMatch : List Char → Option (List Char)
  | [] => none
  | c :: rest =>
    match (if extractDestTag.isPrefixOf (c :: rest) then captureMp3 ((c :: rest).drop 28)
           else none) with
    | some cap => some cap
    | none => findDestMatch rest

/-- `output.match(/\[download\] Destination: (.+)/)`, returning the capture. -/
def findDlDestMatch : List Char → Option (List Char)
  | [] => none
  | c :: rest =>
    match (if dlDestTag.isPrefixOf (c :: rest) then
        (let seg := ((c :: rest).drop 24).takeWhile (fun d => !lineTerminator d)
         if seg.isEmpty then none else some seg)
      else none) with
    | some cap => some cap
    | none => findDlDestMatch rest

/-- `filename.replace(/\.[^/.]+$/, '')`: strip a final extension — a dot
followed by one or more characters, none of which is a dot or a slash,
anchored at the end. -/
def stripExt (name : List Char) : List Char :=
  let extR := name.reverse.takeWhile (fun c => !(c == '.' || c == '/'))
  match name.reverse.drop extR.length with
  | '.' :: _ => if extR.isEmpty then name else name.take (name.length - extR.length - 1)
  | _ => name

/-- `fp.split('/').pop()`: the final path segment (empty when the path ends
with a slash). -/
def lastSegment (fp : List Char) : List Char :=
  (fp.reverse.takeWhile (fun c => c != '/')).reverse

/-! ### Progress events -/

inductive Stage
  | info | download | convert | zip | complete | error
deriving DecidableEq

inductive JobType
  | single | playlist
deriving DecidableEq

/-- The message templates of the `emitProgress` call sites.  Each template is
abstracted to a tag carrying the interpolated payloads, so the model does not
reproduce JavaScript number formatting (`toFixed`). -/
inductive Msg
  | gettingTrackInfo | failedTrackInfo
  | startingDownload (name : List Char)
  | downloading (p : ℚ)
  | converting | conversionCompleted | downloadCompleted | downloadFailed
  | failedStartDownload
  | gettingPlaylistInfo | failedPlaylistInfo
  | startingPlaylist (name : List Char)
  | downloadingItem (cur tot : Nat)
  | downloadingTrack (name : List Char) (p : ℚ)
  | convertingTrack (name : List Char)
  | completedSoFar (n tot : Nat)
  | creatingZip | zipCreated
  | playlistReady (n : Nat)
  | playlistFailed | failedStartPlaylist | failedZip
deriving DecidableEq

/-- The `ProgressData` record of the third revision. -/
structure ProgressData where
  ptype : JobType
  stage : Stage
  progress : ℚ
  message : Msg
  currentTrack : Option (List Char)
  totalTracks : Option Nat
  completedTracks : Option Int
deriving DecidableEq

/-- `emitProgress` checks `if (socketId)` before emitting: with an empty
socket id, nothing is published.  Within one job the socket id is fixed, so
publication of the whole trace is gated once. -/
def publish (sid : List Char) (evs : List ProgressData) : List ProgressData :=
  if sid = [] then [] else evs

/-! ### Filesystem model and artifact resolution -/

/-- The filesystem as the close handler observes it: `existsSync`, plus
`readdirSync` of the output directory paired with each file's `statSync`
mtime (in milliseconds, `getTime()`). -/
structure FileSys where
  existsF : List Char → Bool
  dirFiles : List (List Char × Int)

inductive DlError
  | invalidUrl
  | infoFailed
  | processFailed (code : Int)
  | noMp3Found
  | zipFailed
deriving DecidableEq

def outputDirDefault : List Char := "./downloads".toList

/-- `path.join(dir, name)` for a directory without a trailing slash. -/
def pathJoin (a b : List Char) : List Char := a ++ '/' :: b

/-- `finalFilePath.split('/').pop() || cleanFileName + '.mp3'`. -/
def resolvedFileName (fp clean : List Char) : List Char :=
  if lastSegment fp = [] then clean ++ mp3Suffix else lastSegment fp

/-- Head of the stable descending-by-mtime sort: the first listed file
attaining the maximal mtime (V8's sort is stable; the comparator is
`b.mtime.getTime() - a.mtime.getTime()`). -/
def mostRecent : List (List Char × Int) → Option (List Char × Int)
  | [] => none
  | f :: rest => some (rest.foldl (fun b x => if x.2 > b.2 then x else b) f)

/-- `findRecentMP3File`: filter the directory for `.mp3` names, resolve the
most recently modified one, reject when none exist. -/
def findRecentMP3File (fs : FileSys) (outputDir : List Char) :
    Except DlError (List Char × List Char) :=
  match mostRecent (fs.dirFiles.filter (fun f => mp3Suffix.isSuffixOf f.1)) with
  | some best => .ok (pathJoin outputDir best.1, best.1)
  | none => .error .noMp3Found

/-- The `code === 0` branch of `download`'s close handler: (a) the captured
`finalFilePath` when non-empty and existing; (b) the expected
`outputDir/clean.mp3` when existing; (c) `findRecentMP3File`. -/
def resolveArtifact (fs : FileSys) (outputDir clean finalFilePath : List Char) :
    Except DlError (List Char × List Char) :=
  if finalFilePath ≠ [] ∧ fs.existsF finalFilePath = true then
    .ok (finalFilePath, resolvedFileName finalFilePath clean)
  else if fs.existsF (pathJoin outputDir (clean ++ mp3Suffix)) = true then
    .ok (pathJoin outputDir (clean ++ mp3Suffix), clean ++ mp3Suffix)
  else findRecentMP3File fs outputDir

/-! ### The single-track download flow (third revision) -/

structure SingleState where
  finalFilePath : List Char
  isConverting : Bool
deriving DecidableEq

/-- One `stdout.on('data')` callback of `download`: the chunk is matched, in
order, against the download-percent regex, the `[ExtractAudio]` marker (only
when not already converting), the `[ExtractAudio] Destination:` capture, and
the `Deleting original file` marker (`else if` chain). -/
def singleStep (clean : List Char) (st : SingleState) (chunk : List Char) :
    SingleState × List ProgressData :=
  match findDownloadMatch chunk with
  | some p =>
    (st, [⟨.single, .download, min (10 + p * (7 / 10)) 80, .downloading p,
      some clean, none, none⟩])
  | none =>
    if containsSub extractTag chunk = true ∧ st.isConverting = false then
      (⟨st.finalFilePath, true⟩,
       [⟨.single, .convert, 85, .converting, some clean, none, none⟩])
    else
      match findDestMatch chunk with
      | some path =>
        (⟨path, st.isConverting⟩,
         [⟨.single, .convert, 95, .conversionCompleted, some clean, none, none⟩])
      | none =>
        if containsSub deletingTag chunk = true then
          (st, [⟨.single, .complete, 100, .downloadCompleted, some clean, none, none⟩])
        else (st, [])

def singleRunChunks (clean : List Char) :
    SingleState → List (List Char) → SingleState × List ProgressData
  | st, [] => (st, [])
  | st, c :: rest =>
    let sr := singleStep clean st c
    let rr := singleRunChunks clean sr.1 rest
    (rr.1, sr.2 ++ rr.2)

/-- The environment a single `download` call interacts with: the info
subprocess outcome, the download subprocess's stdout chunks and exit code, and
the filesystem state at close time. -/
structure DownloadEnv where
  infoExit : Int
  trackInfo : List Char
  chunks : List (List Char)
  exitCode : Int
  fs : FileSys

/-- `SoundCloudDownloader.download` (third revision), as a function of its
environment.  Returns the published progress events, the settled promise, and
the number of subprocesses spawned. -/
def runDownload (sid url : List Char) (env : DownloadEnv) :
    List ProgressData × Except DlError (List Char × List Char) × Nat :=
  if isValidSoundCloudUrl url = false then ([], .error .invalidUrl, 0)
  else
    let e0 : List ProgressData := [⟨.single, .info, 0, .gettingTrackInfo, none, none, none⟩]
    if env.infoExit ≠ 0 then
      (publish sid (e0 ++ [⟨.single, .error, 0, .failedTrackInfo, none, none, none⟩]),
       .error .infoFailed, 1)
    else
      let clean := sanitizeFilename env.trackInfo
      let e1 := e0 ++ [⟨.single, .download, 10, .startingDownload clean, some clean, none, none⟩]
      let sr := singleRunChunks clean ⟨[], false⟩ env.chunks
      if env.exitCode = 0 then
        (publish sid (e1 ++ sr.2 ++
          [⟨.single, .complete, 100, .downloadCompleted, some clean, none, none⟩]),
         resolveArtifact env.fs outputDirDefault clean sr.1.finalFilePath, 2)
      else
        (publish sid (e1 ++ sr.2 ++
          [⟨.single, .error, 0, .downloadFailed, none, none, none⟩]),
         .error (.processFailed env.exitCode), 2)

/-! ### The playlist download flow (third revision) -/

structure PlaylistState where
  trackCount : Nat
  totalTracks : Nat
  currentTrack : List Char
  isConverting : Bool
deriving DecidableEq

/-- One `stdout.on('data')` callback of `downloadPlaylist`.  Unlike the single
handler these are independent `if`s, so one chunk can emit several events; the
mutations happen in source order (item count, current-track name, percent
event, conversion start, conversion end). -/
def playlistStep (st : PlaylistState) (chunk : List Char) :
    PlaylistState × List ProgressData :=
  let r1 : PlaylistState × List ProgressData :=
    match findItemMatch chunk with
    | some (cur, tot) =>
      (⟨st.trackCount, tot, st.currentTrack, st.isConverting⟩,
       [⟨.playlist, .download, 5 + (((cur : ℚ) - 1) / tot) * 70, .downloadingItem cur tot,
         some st.currentTrack, some tot, some ((cur : Int) - 1)⟩])
    | none => (st, [])
  let st1 := r1.1
  let st2 : PlaylistState :=
    match findDlDestMatch chunk with
    | some cap => ⟨st1.trackCount, st1.totalTracks, stripExt (lastSegment cap), st1.isConverting⟩
    | none => st1
  let e3 : List ProgressData :=
    match findDownloadMatch chunk with
    | some p =>
      if st2.totalTracks > 0 then
        [⟨.playlist, .download,
          5 + ((st2.trackCount : ℚ) / st2.totalTracks + p / 100 / st2.totalTracks) * 70,
          .downloadingTrack st2.currentTrack p, some st2.currentTrack, some st2.totalTracks,
          some (st2.trackCount : Int)⟩]
      else []
    | none => []
  let r4 : PlaylistState × List ProgressData :=
    if containsSub extractTag chunk = true ∧ st2.isConverting = false then
      (⟨st2.trackCount, st2.totalTracks, st2.currentTrack, true⟩,
       [⟨.playlist, .convert,
         5 + (((st2.trackCount : ℚ) + 4 / 5) / (max st2.totalTracks 1 : ℕ)) * 70,
         .convertingTrack st2.currentTrack, some st2.currentTrack, some st2.totalTracks,
         some (st2.trackCount : Int)⟩])
    else (st2, [])
  let st4 := r4.1
  let r5 : PlaylistState × List ProgressData :=
    match findDestMatch chunk with
    | some _ =>
      if st4.isConverting = true then
        let tc := st4.trackCount + 1
        (⟨tc, st4.totalTracks, st4.currentTrack, false⟩,
         [⟨.playlist, .download, 5 + ((tc : ℚ) / (max st4.totalTracks tc : ℕ)) * 70,
           .completedSoFar tc st4.totalTracks, some st4.currentTrack,
           some (if st4.totalTracks = 0 then tc else st4.totalTracks), some (tc : Int)⟩])
      else (st4, [])
    | none => (st4, [])
  (r5.1, r1.2 ++ e3 ++ r4.2 ++ r5.2)

def playlistRunChunks : PlaylistState → List (List Char) → PlaylistState × List ProgressData
  | st, [] => (st, [])
  | st, c :: rest =>
    let sr := playlistStep st c
    let rr := playlistRunChunks sr.1 rest
    (rr.1, sr.2 ++ rr.2)

/-- The environment of a `downloadPlaylist` call that reaches the download
subprocess: its stdout chunks, its exit code, and whether the zip archival
succeeds.  (The title-derivation of the sanitized playlist name and the
archiver's per-entry progress callbacks, which come from the external archive
library, are not modelled; the sanitized name enters as a parameter.) -/
structure PlaylistEnv where
  chunks : List (List Char)
  exitCode : Int
  zipOk : Bool

def zipSuffix : List Char := ".zip".toList

/-- `SoundCloudDownloader.downloadPlaylist` (third revision) from the point
the download subprocess starts: the stdout fold followed by the close handler,
whose success condition is `code === 0 || trackCount > 0`. -/
def runPlaylist (sid url clean : List Char) (env : PlaylistEnv) :
    List ProgressData × Except DlError (List Char × List Char) :=
  if ¬(isValidSoundCloudUrl url = true ∧ isPlaylistUrl url = true) then
    ([], .error .invalidUrl)
  else
    let e1 : List ProgressData :=
      [⟨.playlist, .info, 0, .gettingPlaylistInfo, none, none, none⟩,
       ⟨.playlist, .download, 5, .startingPlaylist clean, none, none, some 0⟩]
    let pr := playlistRunChunks ⟨0, 0, [], false⟩ env.chunks
    let st := pr.1
    if env.exitCode = 0 ∨ st.trackCount > 0 then
      let e2 := e1 ++ pr.2 ++
        [⟨.playlist, .zip, 80, .creatingZip, none, some st.totalTracks, some (st.trackCount : Int)⟩]
      if env.zipOk = true then
        (publish sid (e2 ++
          [⟨.playlist, .zip, 95, .zipCreated, none, none, none⟩,
           ⟨.playlist, .complete, 100, .playlistReady st.trackCount, none, some st.totalTracks,
             some (st.trackCount : Int)⟩]),
         .ok (pathJoin outputDirDefault (clean ++ zipSuffix), clean ++ zipSuffix))
      else
        (publish sid (e2 ++ [⟨.playlist, .error, 0, .failedZip, none, none, none⟩]),
         .error .zipFailed)
    else
      (publish sid (e1 ++ pr.2 ++ [⟨.playlist, .error, 0, .playlistFailed, none, none, none⟩]),
       .error (.processFailed env.exitCode))

/-! ### The SSE subscriber registry (second revision) -/

/-- `activeDownloads`: a map from download id to the array of open response
connections (sinks are abstracted to numbers). -/
def Registry : Type := List (List Char × List Nat)

/-- The `req.on('close')` handler of `/api/progress/:downloadId`: look the id
up, splice out the first occurrence of this connection, and delete the map
entry when the array becomes empty. -/
def removeConn (reg : Registry) (id : List Char) (sink : Nat) : Registry :=
  match List.lookup id reg with
  | none => reg
  | some conns =>
    let conns' := conns.erase sink
    if conns' = [] then reg.filter (fun e => e.1 != id)
    else reg.map (fun e => if e.1 = id then (e.1, conns') else e)

/-- `sendProgress`: deliver the message to every connection registered for the
id; when the id has no entry, do nothing (returns the list of sinks written
to — an id with no entry yields no writes and no error). -/
def sendProgressSinks (reg : Registry) (id : List Char) : List Nat :=
  match List.lookup id reg with
  | none => []
  | some conns => conns

/-! ### Chunk classification for the canonical single-track output shape -/

/-- A stdout chunk that the single-track handler treats as silent: no
percentage, no `[ExtractAudio]` marker (hence also no destination match), and
no deletion marker. -/
@[reducible] def silentChunk (c : List Char) : Prop :=
  findDownloadMatch c = none ∧ containsSub extractTag c = false ∧
    containsSub deletingTag c = false

/-- A conversion chunk: no percentage but an `[ExtractAudio]` marker. -/
@[reducible] def convChunk (c : List Char) : Prop :=
  findDownloadMatch c = none ∧ containsSub extractTag c = true

/-- A deletion chunk: only the `Deleting original file` marker matches. -/
@[reducible] def delChunk (c : List Char) : Prop :=
  findDownloadMatch c = none ∧ containsSub extractTag c = false ∧
    containsSub deletingTag c = true

/-- The canonical tail of a single-track run: nothing, or a conversion chunk,
or a conversion chunk followed by a deletion chunk. -/
def canonicalTail (B : List (List Char)) : Prop :=
  B = [] ∨ (∃ cv, B = [cv] ∧ convChunk cv) ∨
    (∃ cv dl, B = [cv, dl] ∧ convChunk cv ∧ delChunk dl)

-- MARKER-MORE-DEFS

/-! # Theorems -/

example : sanitizeFilename "a  b..c".toList = "a b.c".toList := by decide
example : sanitizeFilename "  x<y>:z  ".toList = "xyz".toList := by decide
example : sanitizeFilename "?".toList = [] := by decide

/-! ### Invariants of the sanitize pipeline -/

theorem mem_collapseSpacesAux {c : Char} (l : List Char) :
    ∀ b : Bool, c ∈ collapseSpacesAux b l → c ∈ l ∨ c = ' ' := by
  induction l with
  | nil => intro b h; cases b <;> simp [collapseSpacesAux] at h
  | cons d rest ih =>
    intro b h
    cases b with
    | false =>
      cases hjs : jsIsSpace d with
      | false =>
        simp only [collapseSpacesAux, hjs, cond_false] at h
        rcases List.mem_cons.mp h with h' | h'
        · exact Or.inl (h' ▸ List.mem_cons_self _ _)
        · rcases ih false h' with h'' | h''
          exacts [Or.inl (List.mem_cons_of_mem _ h''), Or.inr h'']
      | true =>
        simp only [collapseSpacesAux, hjs, cond_true] at h
        rcases List.mem_cons.mp h with h' | h'
        · exact Or.inr h'
        · rcases ih true h' with h'' | h''
          exacts [Or.inl (List.mem_cons_of_mem _ h''), Or.inr h'']
    | true =>
      cases hjs : jsIsSpace d with
      | false =>
        simp only [collapseSpacesAux, hjs, cond_false] at h
        rcases List.mem_cons.mp h with h' | h'
        · exact Or.inl (h' ▸ List.mem_cons_self _ _)
        · rcases ih false h' with h'' | h''
          exacts [Or.inl (List.mem_cons_of_mem _ h''), Or.inr h'']
      | true =>
        simp only [collapseSpacesAux, hjs, cond_true] at h
        rcases ih true h with h' | h'
        exacts [Or.inl (List.mem_cons_of_mem _ h'), Or.inr h']

theorem space_mem_collapseSpacesAux {c : Char} (l : List Char) :
    ∀ b : Bool, c ∈ collapseSpacesAux b l → jsIsSpace c = true → c = ' ' := by
  induction l with
  | nil => intro b h _; cases b <;> simp [collapseSpacesAux] at h
  | cons d rest ih =>
    intro b h hws
    cases b with
    | false =>
      cases hjs : jsIsSpace d with
      | false =>
        simp only [collapseSpacesAux, hjs, cond_false] at h
        rcases List.mem_cons.mp h with h' | h'
        · rw [h'] at hws; rw [hws] at hjs; exact absurd hjs (by simp)
        · exact ih false h' hws
      | true =>
        simp only [collapseSpacesAux, hjs, cond_true] at h
        rcases List.mem_cons.mp h with h' | h'
        · exact h'
        · exact ih true h' hws
    | true =>
      cases hjs : jsIsSpace d with
      | false =>
        simp only [collapseSpacesAux, hjs, cond_false] at h
        rcases List.mem_cons.mp h with h' | h'
        · rw [h'] at hws; rw [hws] at hjs; exact absurd hjs (by simp)
        · exact ih false h' hws
      | true =>
        simp only [collapseSpacesAux, hjs, cond_true] at h
        exact ih true h hws

theorem head_collapseSpacesAux_true {c : Char} (l : List Char) :
    (collapseSpacesAux true l).head? = some c → jsIsSpace c = false := by
  induction l with
  | nil => intro h; simp [collapseSpacesAux] at h
  | cons d rest ih =>
    intro h
    cases hjs : jsIsSpace d with
    | false =>
      simp only [collapseSpacesAux, hjs, cond_false, List.head?_cons, Option.some.injEq] at h
      rw [← h]; exact hjs
    | true =>
      simp only [collapseSpacesAux, hjs, cond_true] at h
      exact ih h

theorem chain_collapseSpacesAux (l : List Char) :
    ∀ b : Bool, List.Chain' notTwoSpaces (collapseSpacesAux b l) := by
  induction l with
  | nil => intro b; cases b <;> simp [collapseSpacesAux]
  | cons d rest ih =>
    intro b
    cases b with
    | false =>
      cases hjs : jsIsSpace d with
      | false =>
        simp only [collapseSpacesAux, hjs, cond_false]
        refine List.chain'_cons'.mpr ⟨?_, ih false⟩
        intro y _
        exact fun hcon => by rw [hjs] at hcon; exact Bool.false_ne_true hcon.1
      | true =>
        simp only [collapseSpacesAux, hjs, cond_true]
        refine List.chain'_cons'.mpr ⟨?_, ih true⟩
        intro y hy
        have hns := head_collapseSpacesAux_true rest hy
        exact fun hcon => by rw [hns] at hcon; exact Bool.false_ne_true hcon.2
    | true =>
      cases hjs : jsIsSpace d with
      | false =>
        simp only [collapseSpacesAux, hjs, cond_false]
        refine List.chain'_cons'.mpr ⟨?_, ih false⟩
        intro y _
        exact fun hcon => by rw [hjs] at hcon; exact Bool.false_ne_true hcon.1
      | true =>
        simp only [collapseSpacesAux, hjs, cond_true]
        exact ih true

theorem mem_collapseDotsAux {c : Char} (l : List Char) :
    ∀ b : Bool, c ∈ collapseDotsAux b l → c ∈ l := by
  induction l with
  | nil => intro b h; cases b <;> simp [collapseDotsAux] at h
  | cons d rest ih =>
    intro b h
    cases b with
    | false =>
      cases hd : d == '.' with
      | false =>
        simp only [collapseDotsAux, hd, cond_false] at h
        rcases List.mem_cons.mp h with h' | h'
        · exact h' ▸ List.mem_cons_self _ _
        · exact List.mem_cons_of_mem _ (ih false h')
      | true =>
        have hdd : d = '.' := by simpa using hd
        simp only [collapseDotsAux, hd, cond_true] at h
        rcases List.mem_cons.mp h with h' | h'
        · rw [h', ← hdd]; exact List.mem_cons_self _ _
        · exact List.mem_cons_of_mem _ (ih true h')
    | true =>
      cases hd : d == '.' with
      | false =>
        simp only [collapseDotsAux, hd, cond_false] at h
        rcases List.mem_cons.mp h with h' | h'
        · exact h' ▸ List.mem_cons_self _ _
        · exact List.mem_cons_of_mem _ (ih false h')
      | true =>
        simp only [collapseDotsAux, hd, cond_true] at h
        exact List.mem_cons_of_mem _ (ih true h)

theorem head_collapseDotsAux_true {c : Char} (l : List Char) :
    (collapseDotsAux true l).head? = some c → c ≠ '.' := by
  induction l with
  | nil => intro h; simp [collapseDotsAux] at h
  | cons d rest ih =>
    intro h
    cases hd : d == '.' with
    | false =>
      simp only [collapseDotsAux, hd, cond_false, List.head?_cons, Option.some.injEq] at h
      rw [← h]
      intro hcon
      rw [hcon] at hd
      simp at hd
    | true =>
      simp only [collapseDotsAux, hd, cond_true] at h
      exact ih h

theorem head_collapseDotsAux_false {c : Char} (l : List Char)
    (h : (collapseDotsAux false l).head? = some c) : c = '.' ∨ l.head? = some c := by
  cases l with
  | nil => simp [collapseDotsAux] at h
  | cons d rest =>
    cases hd : d == '.' with
    | false =>
      simp only [collapseDotsAux, hd, cond_false, List.head?_cons, Option.some.injEq] at h
      exact Or.inr (by rw [h]; rfl)
    | true =>
      simp only [collapseDotsAux, hd, cond_true, List.head?_cons, Option.some.injEq] at h
      exact Or.inl h.symm

theorem chain_dots_collapseDotsAux (l : List Char) :
    ∀ b : Bool, List.Chain' notTwoDots (collapseDotsAux b l) := by
  induction l with
  | nil => intro b; cases b <;> simp [collapseDotsAux]
  | cons d rest ih =>
    intro b
    cases b with
    | false =>
      cases hd : d == '.' with
      | false =>
        simp only [collapseDotsAux, hd, cond_false]
        refine List.chain'_cons'.mpr ⟨?_, ih false⟩
        intro y _
        exact fun hcon => by rw [hcon.1] at hd; simp at hd
      | true =>
        simp only [collapseDotsAux, hd, cond_true]
        refine List.chain'_cons'.mpr ⟨?_, ih true⟩
        intro y hy
        exact fun hcon => (head_collapseDotsAux_true rest hy) hcon.2
    | true =>
      cases hd : d == '.' with
      | false =>
        simp only [collapseDotsAux, hd, cond_false]
        refine List.chain'_cons'.mpr ⟨?_, ih false⟩
        intro y _
        exact fun hcon => by rw [hcon.1] at hd; simp at hd
      | true =>
        simp only [collapseDotsAux, hd, cond_true]
        exact ih true

theorem chain_spaces_collapseDotsAux (l : List Char) :
    ∀ b : Bool, List.Chain' notTwoSpaces l →
      List.Chain' notTwoSpaces (collapseDotsAux b l) := by
  induction l with
  | nil => intro b _; cases b <;> simp [collapseDotsAux]
  | cons d rest ih =>
    intro b h
    have hrest : List.Chain' notTwoSpaces rest := (List.chain'_cons'.mp h).2
    have hhead : ∀ y ∈ rest.head?, notTwoSpaces d y := (List.chain'_cons'.mp h).1
    cases b with
    | false =>
      cases hd : d == '.' with
      | false =>
        simp only [collapseDotsAux, hd, cond_false]
        refine List.chain'_cons'.mpr ⟨?_, ih false hrest⟩
        intro y hy
        rcases head_collapseDotsAux_false rest hy with h' | h'
        · exact fun hcon => by rw [h'] at hcon; simp [jsIsSpace] at hcon
        · exact hhead y h'
      | true =>
        simp only [collapseDotsAux, hd, cond_true]
        refine List.chain'_cons'.mpr ⟨?_, ih true hrest⟩
        intro y _
        exact fun hcon => by simp [jsIsSpace] at hcon
    | true =>
      cases hd : d == '.' with
      | false =>
        simp only [collapseDotsAux, hd, cond_false]
        refine List.chain'_cons'.mpr ⟨?_, ih false hrest⟩
        intro y hy
        rcases head_collapseDotsAux_false rest hy with h' | h'
        · exact fun hcon => by rw [h'] at hcon; simp [jsIsSpace] at hcon
        · exact hhead y h'
      | true =>
        simp only [collapseDotsAux, hd, cond_true]
        exact ih true hrest

/-! Preservation of adjacency chains and membership through trim / truncation. -/

theorem chain'_of_dropWhile {R : Char → Char → Prop} {p : Char → Bool} {l : List Char}
    (h : List.Chain' R l) : List.Chain' R (l.dropWhile p) := by
  have h2 : List.Chain' R (l.takeWhile p ++ l.dropWhile p) := by
    rw [List.takeWhile_append_dropWhile p l]; exact h
  exact (List.chain'_append.mp h2).2.1

theorem chain'_of_take {R : Char → Char → Prop} {n : ℕ} {l : List Char}
    (h : List.Chain' R l) : List.Chain' R (l.take n) := by
  have h2 : List.Chain' R (l.take n ++ l.drop n) := by
    rw [List.take_append_drop]; exact h
  exact (List.chain'_append.mp h2).1

theorem chain'_of_reverse {R : Char → Char → Prop} {l : List Char}
    (hsym : ∀ a b, R a b → R b a) (h : List.Chain' R l) : List.Chain' R l.reverse :=
  List.chain'_reverse.mpr (h.imp fun _ _ hr => hsym _ _ hr)

theorem chain'_of_jsTrim {R : Char → Char → Prop} {l : List Char}
    (hsym : ∀ a b, R a b → R b a) (h : List.Chain' R l) : List.Chain' R (jsTrim l) := by
  unfold jsTrim jsTrimEnd
  exact chain'_of_reverse hsym (chain'_of_dropWhile (chain'_of_reverse hsym
    (chain'_of_dropWhile h)))

theorem mem_of_mem_dropWhile {c : Char} {p : Char → Bool} {l : List Char}
    (h : c ∈ l.dropWhile p) : c ∈ l := by
  rw [← List.takeWhile_append_dropWhile p l]
  exact List.mem_append_right _ h

theorem mem_of_mem_jsTrim {c : Char} {l : List Char} (h : c ∈ jsTrim l) : c ∈ l := by
  unfold jsTrim jsTrimEnd at h
  have h1 := List.mem_reverse.mp h
  have h2 := mem_of_mem_dropWhile h1
  have h3 := List.mem_reverse.mp h2
  exact mem_of_mem_dropWhile h3

theorem mem_of_mem_sanitize {c : Char} {s : List Char} (h : c ∈ sanitizeFilename s) :
    c ∈ collapseDots (collapseSpaces (s.filter (fun c => decide (c ∉ reservedChars)))) := by
  unfold sanitizeFilename at h
  exact mem_of_mem_jsTrim (List.take_subset _ _ h)

theorem notTwoSpaces_symm : ∀ a b, notTwoSpaces a b → notTwoSpaces b a :=
  fun _ _ h hcon => h ⟨hcon.2, hcon.1⟩

theorem notTwoDots_symm : ∀ a b, notTwoDots a b → notTwoDots b a :=
  fun _ _ h hcon => h ⟨hcon.2, hcon.1⟩

theorem sanitize_length (s : List Char) : (sanitizeFilename s).length ≤ 200 := by
  unfold sanitizeFilename
  rw [List.length_take]
  exact min_le_left _ _

theorem sanitize_mem_not_reserved {c : Char} {s : List Char}
    (h : c ∈ sanitizeFilename s) : c ∉ reservedChars := by
  have h1 := mem_of_mem_sanitize h
  have h2 := mem_collapseDotsAux _ false h1
  rcases mem_collapseSpacesAux _ false h2 with h3 | h3
  · exact of_decide_eq_true (List.mem_filter.mp h3).2
  · rw [h3]; decide

theorem sanitize_ws_is_space {c : Char} {s : List Char}
    (h : c ∈ sanitizeFilename s) (hws : jsIsSpace c = true) : c = ' ' := by
  have h1 := mem_of_mem_sanitize h
  have h2 := mem_collapseDotsAux _ false h1
  exact space_mem_collapseSpacesAux _ false h2 hws

theorem sanitize_chain_spaces (s : List Char) :
    List.Chain' notTwoSpaces (sanitizeFilename s) := by
  unfold sanitizeFilename
  exact chain'_of_take (chain'_of_jsTrim notTwoSpaces_symm
    (chain_spaces_collapseDotsAux _ false (chain_collapseSpacesAux _ false)))

theorem sanitize_chain_dots (s : List Char) :
    List.Chain' notTwoDots (sanitizeFilename s) := by
  unfold sanitizeFilename
  exact chain'_of_take (chain'_of_jsTrim notTwoDots_symm (chain_dots_collapseDotsAux _ false))

/-- C1.  For every input string, `sanitizeFilename` returns a string of length
at most 200 that contains none of the reserved filesystem characters
`< > : " / \ | ? *`, and contains no run of two or more consecutive spaces and
no run of two or more consecutive dots.  (The claim's final conjunct — that the
result is never empty, with a placeholder fallback — is FALSE of the code; see
the counterexample.  This theorem is the amended claim.) -/
theorem C1_sanitize_invariants (s : List Char) :
    (sanitizeFilename s).length ≤ 200 ∧
    (∀ c ∈ sanitizeFilename s, c ∉ reservedChars) ∧
    List.Chain' (fun a b => ¬(a = ' ' ∧ b = ' ')) (sanitizeFilename s) ∧
    List.Chain' (fun a b => ¬(a = '.' ∧ b = '.')) (sanitizeFilename s) := by
  refine ⟨sanitize_length s, fun c hc => sanitize_mem_not_reserved hc, ?_, ?_⟩
  · refine (sanitize_chain_spaces s).imp ?_
    intro a b hab hcon
    exact hab ⟨by rw [hcon.1]; decide, by rw [hcon.2]; decide⟩
  · exact sanitize_chain_dots s

/-- C1, counterexample to the non-emptiness conjunct: the input `"?"` (and any
input consisting only of removed/trimmed characters) sanitizes to the empty
string — `sanitizeFilename` has no placeholder fallback. -/
theorem C1_counterexample : sanitizeFilename ['?'] = [] := by decide

/-! ### Idempotence machinery -/

theorem head?_mem {c : Char} {l : List Char} (h : l.head? = some c) : c ∈ l := by
  cases l with
  | nil => simp at h
  | cons a t =>
    rw [List.head?_cons, Option.some.injEq] at h
    exact h ▸ List.mem_cons_self _ _

theorem getLast?_mem {c : Char} {l : List Char} (h : l.getLast? = some c) : c ∈ l := by
  rw [← List.head?_reverse] at h
  exact List.mem_reverse.mp (head?_mem h)

theorem head_take {c : Char} {n : ℕ} {l : List Char} (h : (l.take n).head? = some c) :
    l.head? = some c := by
  cases n with
  | zero => simp at h
  | succ n =>
    cases l with
    | nil => simp at h
    | cons a t => simpa using h

theorem jsTrimEnd_front (l : List Char) : ∃ t, jsTrimEnd l ++ t = l := by
  unfold jsTrimEnd
  obtain ⟨t, ht⟩ : ∃ t, t ++ l.reverse.dropWhile jsIsSpace = l.reverse :=
    ⟨l.reverse.takeWhile jsIsSpace, List.takeWhile_append_dropWhile _ _⟩
  exact ⟨t.reverse, by rw [← List.reverse_append, ht, List.reverse_reverse]⟩

theorem head_of_front {c : Char} {u l : List Char} (h : ∃ t, u ++ t = l)
    (hu : u.head? = some c) : l.head? = some c := by
  obtain ⟨t, rfl⟩ := h
  cases u with
  | nil => simp at hu
  | cons a u' => simpa using hu

theorem head_dropWhile_false {p : Char → Bool} {c : Char} :
    ∀ {l : List Char}, (l.dropWhile p).head? = some c → p c = false := by
  intro l
  induction l with
  | nil => intro h; simp at h
  | cons a t ih =>
    intro h
    rw [List.dropWhile_cons] at h
    by_cases hp : p a = true
    · rw [if_pos hp] at h; exact ih h
    · rw [if_neg hp] at h
      rw [List.head?_cons, Option.some.injEq] at h
      rw [← h]
      exact Bool.not_eq_true _ ▸ (by revert hp; cases p a <;> simp)

theorem sanitize_head_not_ws {c : Char} {s : List Char}
    (h : (sanitizeFilename s).head? = some c) : jsIsSpace c = false := by
  unfold sanitizeFilename at h
  have h1 := head_take h
  unfold jsTrim at h1
  have h2 := head_of_front (jsTrimEnd_front _) h1
  exact head_dropWhile_false h2

theorem collapseSpacesAux_eq_self (l : List Char)
    (hall : ∀ c ∈ l, jsIsSpace c = true → c = ' ')
    (hchain : List.Chain' notTwoSpaces l) :
    collapseSpacesAux false l = l ∧
      ((∀ c ∈ l.head?, jsIsSpace c = false) → collapseSpacesAux true l = l) := by
  induction l with
  | nil => exact ⟨rfl, fun _ => rfl⟩
  | cons d rest ih =>
    have hrest : List.Chain' notTwoSpaces rest := (List.chain'_cons'.mp hchain).2
    have hhead : ∀ y ∈ rest.head?, notTwoSpaces d y := (List.chain'_cons'.mp hchain).1
    have hallr : ∀ c ∈ rest, jsIsSpace c = true → c = ' ' :=
      fun c hc => hall c (List.mem_cons_of_mem _ hc)
    cases hjs : jsIsSpace d with
    | false =>
      have h1 : collapseSpacesAux false rest = rest := (ih hallr hrest).1
      constructor
      · simp only [collapseSpacesAux, hjs, cond_false, h1]
      · intro _
        simp only [collapseSpacesAux, hjs, cond_false, h1]
    | true =>
      have hd : d = ' ' := hall d (List.mem_cons_self _ _) hjs
      have hrh : ∀ c ∈ rest.head?, jsIsSpace c = false := by
        intro c hc
        cases hws : jsIsSpace c with
        | false => rfl
        | true => exact absurd ⟨hjs, hws⟩ (hhead c hc)
      have h2 : collapseSpacesAux true rest = rest := (ih hallr hrest).2 hrh
      constructor
      · simp only [collapseSpacesAux, hjs, cond_true, h2]
        rw [hd]
      · intro hcond
        exact absurd (hcond d (by simp)) (by rw [hjs]; simp)

theorem collapseDotsAux_eq_self (l : List Char)
    (hchain : List.Chain' notTwoDots l) :
    collapseDotsAux false l = l ∧
      ((∀ c ∈ l.head?, c ≠ '.') → collapseDotsAux true l = l) := by
  induction l with
  | nil => exact ⟨rfl, fun _ => rfl⟩
  | cons d rest ih =>
    have hrest : List.Chain' notTwoDots rest := (List.chain'_cons'.mp hchain).2
    have hhead : ∀ y ∈ rest.head?, notTwoDots d y := (List.chain'_cons'.mp hchain).1
    cases hd : d == '.' with
    | false =>
      have h1 : collapseDotsAux false rest = rest := (ih hrest).1
      constructor
      · simp only [collapseDotsAux, hd, cond_false, h1]
      · intro _
        simp only [collapseDotsAux, hd, cond_false, h1]
    | true =>
      have hdd : d = '.' := by simpa using hd
      have hrh : ∀ c ∈ rest.head?, c ≠ '.' := by
        intro c hc hcon
        exact (hhead c hc) ⟨hdd, hcon⟩
      have h2 : collapseDotsAux true rest = rest := (ih hrest).2 hrh
      constructor
      · simp only [collapseDotsAux, hd, cond_true, h2]
        rw [hdd]
      · intro hcond
        exact absurd hdd (hcond d (by simp))

/-- C10 (amended).  `sanitizeFilename` is idempotent on every input whose
sanitized form does not end in a space.  (A trailing space can only arise from
the 200-character truncation cutting a name right after an interior space; in
that single situation a second application trims the trailing space, so the
claim as stated is false — see the counterexample.) -/
theorem C10_sanitize_idempotent (s : List Char)
    (h : (sanitizeFilename s).getLast? ≠ some ' ') :
    sanitizeFilename (sanitizeFilename s) = sanitizeFilename s := by
  have hfil : (sanitizeFilename s).filter (fun c => decide (c ∉ reservedChars)) =
      sanitizeFilename s :=
    List.filter_eq_self.mpr (fun a ha => decide_eq_true (sanitize_mem_not_reserved ha))
  have hcs : collapseSpaces (sanitizeFilename s) = sanitizeFilename s :=
    (collapseSpacesAux_eq_self _ (fun c hc => sanitize_ws_is_space hc)
      (sanitize_chain_spaces s)).1
  have hcd : collapseDots (sanitizeFilename s) = sanitizeFilename s :=
    (collapseDotsAux_eq_self _ (sanitize_chain_dots s)).1
  have hdw : (sanitizeFilename s).dropWhile jsIsSpace = sanitizeFilename s := by
    cases hcy : sanitizeFilename s with
    | nil => simp
    | cons a t =>
      have hh : (sanitizeFilename s).head? = some a := by rw [hcy]; rfl
      have := sanitize_head_not_ws hh
      rw [List.dropWhile_cons, if_neg (by simp [this])]
  have hlast : ∀ c, (sanitizeFilename s).getLast? = some c → jsIsSpace c = false := by
    intro c hc
    by_cases hsp : c = ' '
    · exact absurd (hsp ▸ hc) h
    · cases hws : jsIsSpace c with
      | false => rfl
      | true => exact absurd (sanitize_ws_is_space (getLast?_mem hc) hws) hsp
  have hte : jsTrimEnd (sanitizeFilename s) = sanitizeFilename s := by
    unfold jsTrimEnd
    have hrd : (sanitizeFilename s).reverse.dropWhile jsIsSpace =
        (sanitizeFilename s).reverse := by
      cases hr : (sanitizeFilename s).reverse with
      | nil => simp
      | cons a t =>
        have ha : (sanitizeFilename s).getLast? = some a := by
          rw [← List.head?_reverse, hr]; rfl
        rw [List.dropWhile_cons, if_neg (by simp [hlast a ha])]
    rw [hrd, List.reverse_reverse]
  have htake : (sanitizeFilename s).take 200 = sanitizeFilename s :=
    List.take_of_length_le (sanitize_length s)
  conv_lhs => rw [sanitizeFilename]
  rw [hfil, hcs, hcd, jsTrim, hdw, hte, htake]

set_option maxRecDepth 4000 in
/-- C10, counterexample: a 201-character input whose 200-character truncation
ends exactly on a space.  The first sanitization keeps the trailing space, the
second trims it, so `sanitizeFilename` is not idempotent as claimed. -/
theorem C10_counterexample :
    sanitizeFilename (sanitizeFilename (List.replicate 199 'a' ++ [' ', 'b'])) ≠
      sanitizeFilename (List.replicate 199 'a' ++ [' ', 'b']) := by decide

/-- Witness for C10's amended theorem at a concrete input. -/
theorem C10_witness :
    (sanitizeFilename "ab".toList).getLast? ≠ some ' ' ∧
      sanitizeFilename (sanitizeFilename "ab".toList) = sanitizeFilename "ab".toList :=
  ⟨by decide, C10_sanitize_idempotent _ (by decide)⟩

/-! ### URL validation lemmas -/

theorem scPathOk_iff {s : List Char} :
    scPathOk s = true ↔
      ∃ (c : Char) (rest : List Char),
        lineTerminator c = false ∧ s = scHostTag ++ c :: rest := by
  constructor
  · intro h
    rw [scPathOk, Bool.and_eq_true] at h
    obtain ⟨t, ht⟩ := List.isPrefixOf_iff_prefix.mp h.1
    have h15 : scHostTag.length = 15 := rfl
    have hdrop : s.drop 15 = t := by rw [← ht, ← h15, List.drop_left]
    rw [hdrop] at h
    cases t with
    | nil => simp [restOk] at h
    | cons c r =>
      refine ⟨c, r, ?_, ht.symm⟩
      have := h.2
      rw [restOk] at this
      simpa using this
  · rintro ⟨c, rest, hlt, rfl⟩
    rw [scPathOk, Bool.and_eq_true]
    refine ⟨List.isPrefixOf_iff_prefix.mpr ⟨c :: rest, rfl⟩, ?_⟩
    have h15 : scHostTag.length = 15 := rfl
    rw [← h15, List.drop_left, restOk]
    simpa using hlt

theorem hostOk_iff {s : List Char} :
    hostOk s = true ↔
      ∃ (www : Bool) (c : Char) (rest : List Char),
        lineTerminator c = false ∧ s = (cond www wwwTag []) ++ scHostTag ++ c :: rest := by
  constructor
  · intro h
    rw [hostOk, Bool.or_eq_true] at h
    rcases h with h | h
    · obtain ⟨c, rest, hlt, hs⟩ := scPathOk_iff.mp h
      exact ⟨false, c, rest, hlt, by simpa using hs⟩
    · rw [Bool.and_eq_true] at h
      obtain ⟨t, ht⟩ := List.isPrefixOf_iff_prefix.mp h.1
      have h4 : wwwTag.length = 4 := rfl
      have hdrop : s.drop 4 = t := by rw [← ht, ← h4, List.drop_left]
      rw [hdrop] at h
      obtain ⟨c, rest, hlt, hs⟩ := scPathOk_iff.mp h.2
      exact ⟨true, c, rest, hlt, by rw [← ht, hs]; rfl⟩
  · rintro ⟨www, c, rest, hlt, rfl⟩
    rw [hostOk, Bool.or_eq_true]
    cases www with
    | false =>
      exact Or.inl (scPathOk_iff.mpr ⟨c, rest, hlt, by rfl⟩)
    | true =>
      refine Or.inr ?_
      rw [Bool.and_eq_true]
      refine ⟨List.isPrefixOf_iff_prefix.mpr ⟨scHostTag ++ c :: rest, rfl⟩, ?_⟩
      have h4 : wwwTag.length = 4 := rfl
      show scPathOk ((wwwTag ++ (scHostTag ++ c :: rest)).drop 4) = true
      rw [← h4, List.drop_left]
      exact scPathOk_iff.mpr ⟨c, rest, hlt, rfl⟩

theorem isValid_iff_amended {url : List Char} :
    isValidSoundCloudUrl url = true ↔ amendedUrlPattern url := by
  constructor
  · intro h
    rw [isValidSoundCloudUrl, Bool.or_eq_true] at h
    rcases h with h | h <;> rw [Bool.and_eq_true] at h
    · obtain ⟨t, ht⟩ := List.isPrefixOf_iff_prefix.mp h.1
      have h8 : httpsTag.length = 8 := rfl
      have hdrop : url.drop 8 = t := by rw [← ht, ← h8, List.drop_left]
      rw [hdrop] at h
      obtain ⟨www, c, rest, hlt, hs⟩ := hostOk_iff.mp h.2
      exact ⟨true, www, c, rest, hlt, by rw [← ht, hs]; rfl⟩
    · obtain ⟨t, ht⟩ := List.isPrefixOf_iff_prefix.mp h.1
      have h7 : httpTag.length = 7 := rfl
      have hdrop : url.drop 7 = t := by rw [← ht, ← h7, List.drop_left]
      rw [hdrop] at h
      obtain ⟨www, c, rest, hlt, hs⟩ := hostOk_iff.mp h.2
      exact ⟨false, www, c, rest, hlt, by rw [← ht, hs]; rfl⟩
  · rintro ⟨secure, www, c, rest, hlt, rfl⟩
    rw [isValidSoundCloudUrl, Bool.or_eq_true]
    cases secure with
    | true =>
      refine Or.inl ?_
      rw [Bool.and_eq_true]
      refine ⟨List.isPrefixOf_iff_prefix.mpr ⟨_, rfl⟩, ?_⟩
      have h8 : httpsTag.length = 8 := rfl
      show hostOk (((httpsTag : List Char) ++
        ((cond www wwwTag []) ++ scHostTag ++ c :: rest)).drop 8) = true
      rw [← h8, List.drop_left]
      exact hostOk_iff.mpr ⟨www, c, rest, hlt, rfl⟩
    | false =>
      refine Or.inr ?_
      rw [Bool.and_eq_true]
      refine ⟨List.isPrefixOf_iff_prefix.mpr ⟨_, rfl⟩, ?_⟩
      have h7 : httpTag.length = 7 := rfl
      show hostOk (((httpTag : List Char) ++
        ((cond www wwwTag []) ++ scHostTag ++ c :: rest)).drop 7) = true
      rw [← h7, List.drop_left]
      exact hostOk_iff.mpr ⟨www, c, rest, hlt, rfl⟩

/-! ### C8: URL validation and the pre-spawn reject -/

/-- C8 (amended).  Validation accepts exactly the URLs of the platform pattern
refined so that the first path character is not a line terminator (JS `.` does
not match line terminators — see the counterexample for the unrefined
pattern); and for every non-matching URL, `download` rejects with the
invalid-URL error before any subprocess is spawned (zero processes). -/
theorem C8_url_validation :
    (∀ url : List Char, isValidSoundCloudUrl url = true ↔ amendedUrlPattern url) ∧
    (∀ (sid url : List Char) (env : DownloadEnv), isValidSoundCloudUrl url = false →
      runDownload sid url env = ([], .error .invalidUrl, 0)) := by
  refine ⟨fun url => isValid_iff_amended, ?_⟩
  intro sid url env h
  simp [runDownload, h]

/-- C8, counterexample to the claim's exact pattern: a URL whose path is the
non-empty string `"\nx"` matches the claimed pattern (http(s), optional www,
host, non-empty path) but is rejected by the code, because JS `.` does not
match the line terminator that starts the path. -/
theorem C8_counterexample :
    specUrlPattern ("https://soundcloud.com/".toList ++ '\n' :: ['x']) ∧
      isValidSoundCloudUrl ("https://soundcloud.com/".toList ++ '\n' :: ['x']) = false :=
  ⟨⟨true, false, '\n' :: ['x'], by decide, by decide⟩, by decide⟩

/-- Witness for C8 at a concrete non-matching URL. -/
theorem C8_witness :
    isValidSoundCloudUrl "notaurl".toList = false ∧
      runDownload "s".toList "notaurl".toList ⟨0, [], [], 0, ⟨fun _ => false, []⟩⟩ =
        ([], .error .invalidUrl, 0) :=
  ⟨by decide, C8_url_validation.2 "s".toList "notaurl".toList ⟨0, [], [], 0, ⟨fun _ => false, []⟩⟩
    (by decide)⟩

/-! ### C2: artifact resolution priority -/

theorem foldl_best (l : List (List Char × Int)) (a : List Char × Int) :
    ((l.foldl (fun b x => if x.2 > b.2 then x else b) a) = a ∨
      (l.foldl (fun b x => if x.2 > b.2 then x else b) a) ∈ l) ∧
    a.2 ≤ (l.foldl (fun b x => if x.2 > b.2 then x else b) a).2 ∧
    ∀ x ∈ l, x.2 ≤ (l.foldl (fun b x => if x.2 > b.2 then x else b) a).2 := by
  induction l generalizing a with
  | nil => exact ⟨Or.inl rfl, le_refl _, by simp⟩
  | cons b t ih =>
    obtain ⟨ihm, iha, ihall⟩ := ih (if b.2 > a.2 then b else a)
    have hstep : (if b.2 > a.2 then b else a) = b ∨ (if b.2 > a.2 then b else a) = a := by
      by_cases hba : b.2 > a.2
      · exact Or.inl (if_pos hba)
      · exact Or.inr (if_neg hba)
    have ha_le : a.2 ≤ (if b.2 > a.2 then b else a).2 := by
      by_cases hba : b.2 > a.2
      · rw [if_pos hba]; exact le_of_lt hba
      · rw [if_neg hba]
    have hb_le : b.2 ≤ (if b.2 > a.2 then b else a).2 := by
      by_cases hba : b.2 > a.2
      · rw [if_pos hba]
      · rw [if_neg hba]; exact le_of_not_lt hba
    refine ⟨?_, le_trans ha_le iha, ?_⟩
    · rcases ihm with h | h
      · rcases hstep with h' | h'
        · rw [List.foldl_cons, h, h']
          exact Or.inr (List.mem_cons_self _ _)
        · rw [List.foldl_cons, h, h']
          exact Or.inl rfl
      · exact Or.inr (List.mem_cons_of_mem _ h)
    · intro x hx
      rcases List.mem_cons.mp hx with h | h
      · rw [h]
        exact le_trans hb_le iha
      · exact ihall x h

theorem mostRecent_spec (l : List (List Char × Int)) (hne : l ≠ []) :
    ∃ best, mostRecent l = some best ∧ best ∈ l ∧ ∀ x ∈ l, x.2 ≤ best.2 := by
  cases l with
  | nil => exact absurd rfl hne
  | cons f rest =>
    obtain ⟨hm, hf, hall⟩ := foldl_best rest f
    refine ⟨_, rfl, ?_, ?_⟩
    · rcases hm with h | h
      · rw [h]
        exact List.mem_cons_self _ _
      · exact List.mem_cons_of_mem _ h
    · intro x hx
      rcases List.mem_cons.mp hx with h | h
      · exact h ▸ hf
      · exact hall x h

/-- C2.  On a successful exit, the artifact is chosen in strict priority
order: (a) the captured destination path when it exists on disk (no condition
on the expected path — in particular it wins when both exist); otherwise
(b) the expected `dir/clean.mp3` when it exists; otherwise (c) the `.mp3`
directory entry with maximal mtime (the first listed one among ties, matching
the stable descending sort); and when no tier yields a file, the operation
fails (`No MP3 files found`) rather than resolving. -/
theorem C2_resolution_priority (fs : FileSys) (dir clean fp : List Char) :
    (fp ≠ [] → fs.existsF fp = true →
      resolveArtifact fs dir clean fp = .ok (fp, resolvedFileName fp clean)) ∧
    ((fp = [] ∨ fs.existsF fp = false) →
      fs.existsF (pathJoin dir (clean ++ mp3Suffix)) = true →
      resolveArtifact fs dir clean fp =
        .ok (pathJoin dir (clean ++ mp3Suffix), clean ++ mp3Suffix)) ∧
    ((fp = [] ∨ fs.existsF fp = false) →
      fs.existsF (pathJoin dir (clean ++ mp3Suffix)) = false →
      fs.dirFiles.filter (fun f => mp3Suffix.isSuffixOf f.1) ≠ [] →
      ∃ best, best ∈ fs.dirFiles.filter (fun f => mp3Suffix.isSuffixOf f.1) ∧
        (∀ x ∈ fs.dirFiles.filter (fun f => mp3Suffix.isSuffixOf f.1), x.2 ≤ best.2) ∧
        resolveArtifact fs dir clean fp = .ok (pathJoin dir best.1, best.1)) ∧
    ((fp = [] ∨ fs.existsF fp = false) →
      fs.existsF (pathJoin dir (clean ++ mp3Suffix)) = false →
      fs.dirFiles.filter (fun f => mp3Suffix.isSuffixOf f.1) = [] →
      resolveArtifact fs dir clean fp = .error .noMp3Found) := by
  have tierA_skip : (fp = [] ∨ fs.existsF fp = false) →
      ¬(fp ≠ [] ∧ fs.existsF fp = true) := by
    rintro (h | h) ⟨hne, hex⟩
    · exact hne h
    · rw [h] at hex; exact Bool.false_ne_true hex
  refine ⟨?_, ?_, ?_, ?_⟩
  · intro hne hex
    unfold resolveArtifact
    rw [if_pos ⟨hne, hex⟩]
  · intro hskip hexp
    unfold resolveArtifact
    rw [if_neg (tierA_skip hskip), if_pos hexp]
  · intro hskip hexp hne
    obtain ⟨best, hm, hmem, hall⟩ := mostRecent_spec _ hne
    refine ⟨best, hmem, hall, ?_⟩
    unfold resolveArtifact
    rw [if_neg (tierA_skip hskip), if_neg (by rw [hexp]; exact Bool.false_ne_true)]
    unfold findRecentMP3File
    rw [hm]
  · intro hskip hexp hnil
    unfold resolveArtifact
    rw [if_neg (tierA_skip hskip), if_neg (by rw [hexp]; exact Bool.false_ne_true)]
    unfold findRecentMP3File
    rw [hnil]
    rfl

/-- Witness for C2: the captured path wins even though the expected fallback
path also exists (the filesystem reports every path as existing). -/
theorem C2_witness :
    resolveArtifact ⟨fun _ => true, []⟩ outputDirDefault "t".toList "d.mp3".toList =
      .ok ("d.mp3".toList, resolvedFileName "d.mp3".toList "t".toList) :=
  (C2_resolution_priority ⟨fun _ => true, []⟩ outputDirDefault "t".toList "d.mp3".toList).1
    (by decide) (by decide)

/-! ### C6: exit 0 with no discoverable artifact -/

/-- C6.  When the download subprocess exits 0 but no tier resolves a file —
the captured path is empty or does not exist, the expected path does not
exist, and the directory holds no `.mp3` entries — the promise rejects with
the no-MP3-found error instead of completing. -/
theorem C6_artifact_not_found (sid url : List Char) (env : DownloadEnv)
    (hurl : isValidSoundCloudUrl url = true)
    (hinfo : env.infoExit = 0)
    (hexit : env.exitCode = 0)
    (hfp : (singleRunChunks (sanitizeFilename env.trackInfo) ⟨[], false⟩ env.chunks).1.finalFilePath
        = [] ∨
      env.fs.existsF
        ((singleRunChunks (sanitizeFilename env.trackInfo) ⟨[], false⟩ env.chunks).1.finalFilePath)
        = false)
    (hexp : env.fs.existsF
        (pathJoin outputDirDefault (sanitizeFilename env.trackInfo ++ mp3Suffix)) = false)
    (hdir : env.fs.dirFiles.filter (fun f => mp3Suffix.isSuffixOf f.1) = []) :
    (runDownload sid url env).2.1 = .error .noMp3Found := by
  unfold runDownload
  rw [if_neg (by rw [hurl]; exact fun hcon => Bool.true_eq_false ▸ hcon ▸ rfl)]
  · rw [if_neg (by rw [hinfo]; exact fun hcon => hcon rfl)]
    rw [if_pos hexit]
    exact (C2_resolution_priority env.fs outputDirDefault (sanitizeFilename env.trackInfo) _).2.2.2
      hfp hexp hdir

/-- Witness for C6 at a concrete environment with an empty filesystem. -/
theorem C6_witness :
    (runDownload "s".toList "https://soundcloud.com/a/t".toList
      ⟨0, "t".toList, [], 0, ⟨fun _ => false, []⟩⟩).2.1 = .error .noMp3Found :=
  C6_artifact_not_found "s".toList "https://soundcloud.com/a/t".toList
    ⟨0, "t".toList, [], 0, ⟨fun _ => false, []⟩⟩
    (by decide) (by decide) (by decide) (Or.inl (by decide)) (by decide) (by decide)

/-! ### C9: the resolved result does not depend on the socket id -/

/-- C9.  The settled `{filePath, fileName}` result of `download` is the same
for any two socket ids (including the empty id, for which `emitProgress`
publishes nothing): progress emission never affects the returned value. -/
theorem C9_result_socket_independent (sid₁ sid₂ url : List Char) (env : DownloadEnv) :
    (runDownload sid₁ url env).2.1 = (runDownload sid₂ url env).2.1 := by
  unfold runDownload
  split
  · rfl
  · split
    · rfl
    · split <;> rfl

/-! ### C5: the subscriber registry -/

theorem lookup_filter_ne (reg : Registry) (id : List Char) :
    List.lookup id (reg.filter (fun e => e.1 != id)) = none := by
  induction reg with
  | nil => rfl
  | cons e t ih =>
    by_cases h : e.1 = id
    · simpa [List.filter_cons, h] using ih
    · have hbeq : (id == e.1) = false := beq_eq_false_iff_ne.mpr (fun hcon => h hcon.symm)
      rw [List.filter_cons, if_pos (by simpa using h)]
      simp only [List.lookup, hbeq]
      exact ih

/-- C5.  Removing the last connection of a download id deletes the id's entry
from `activeDownloads` (no leak), and `sendProgress` for an id with no entry
writes to no sink and raises no error (it is a total no-op). -/
theorem C5_registry (reg : Registry) (id : List Char) (sink : Nat) (conns : List Nat) :
    (List.lookup id reg = some conns → conns.erase sink = [] →
      List.lookup id (removeConn reg id sink) = none) ∧
    (List.lookup id reg = none → sendProgressSinks reg id = []) := by
  constructor
  · intro hl he
    unfold removeConn
    rw [hl]
    simp [he, lookup_filter_ne reg id]
  · intro hl
    unfold sendProgressSinks
    rw [hl]

/-- Witness for C5 at a concrete one-entry registry. -/
theorem C5_witness :
    List.lookup "j1".toList (removeConn [("j1".toList, [5])] "j1".toList 5) = none ∧
      sendProgressSinks ([("j1".toList, [5])] : Registry) "j2".toList = [] :=
  ⟨(C5_registry [("j1".toList, [5])] "j1".toList 5 [5]).1 (by decide) (by decide),
   (C5_registry [("j1".toList, [5])] "j2".toList 0 []).2 (by decide)⟩

/-! ### C3: nonzero exit code -/

/-- C3 (amended).  When the download subprocess exits nonzero: a single-track
job always rejects with the process error and its last published event is an
error-stage event; a playlist job does so only when NO track completed
(`trackCount = 0`) — the playlist close handler's condition is
`code === 0 || trackCount > 0`, so a nonzero exit after at least one completed
track is treated as partial success and proceeds to zipping (see the
counterexample). -/
theorem C3_nonzero_exit (sid url clean : List Char) (env : DownloadEnv) (penv : PlaylistEnv)
    (hsid : sid ≠ [])
    (hurl : isValidSoundCloudUrl url = true)
    (hply : isPlaylistUrl url = true)
    (hinfo : env.infoExit = 0)
    (hexit : env.exitCode ≠ 0)
    (hpexit : penv.exitCode ≠ 0)
    (hzero : (playlistRunChunks ⟨0, 0, [], false⟩ penv.chunks).1.trackCount = 0) :
    ((runDownload sid url env).2.1 = .error (.processFailed env.exitCode) ∧
      ((runDownload sid url env).1.getLast?).map (fun e => e.stage) = some .error) ∧
    ((runPlaylist sid url clean penv).2 = .error (.processFailed penv.exitCode) ∧
      ((runPlaylist sid url clean penv).1.getLast?).map (fun e => e.stage) = some .error) := by
  constructor
  · unfold runDownload
    rw [if_neg (by rw [hurl]; exact fun hcon => Bool.true_eq_false ▸ hcon ▸ rfl)]
    rw [if_neg (by rw [hinfo]; exact fun hcon => hcon rfl)]
    rw [if_neg hexit]
    refine ⟨rfl, ?_⟩
    unfold publish
    rw [if_neg hsid]
    rw [List.getLast?_concat]
    rfl
  · unfold runPlaylist
    rw [if_neg (by rw [hurl, hply]; exact fun hcon => hcon ⟨rfl, rfl⟩)]
    rw [if_neg (by rw [hzero]; rintro (h | h); exacts [hpexit h, absurd h (by decide)])]
    refine ⟨rfl, ?_⟩
    unfold publish
    rw [if_neg hsid]
    rw [List.getLast?_concat]
    rfl

/-- Witness for C3 at concrete environments with empty subprocess output and
exit code 1. -/
theorem C3_witness :
    ((runDownload "s".toList "https://soundcloud.com/a/sets/b".toList
        ⟨0, "t".toList, [], 1, ⟨fun _ => false, []⟩⟩).2.1 =
      .error (.processFailed 1) ∧
      ((runDownload "s".toList "https://soundcloud.com/a/sets/b".toList
        ⟨0, "t".toList, [], 1, ⟨fun _ => false, []⟩⟩).1.getLast?).map (fun e => e.stage) =
        some .error) ∧
    ((runPlaylist "s".toList "https://soundcloud.com/a/sets/b".toList "p".toList
        ⟨[], 1, true⟩).2 = .error (.processFailed 1) ∧
      ((runPlaylist "s".toList "https://soundcloud.com/a/sets/b".toList "p".toList
        ⟨[], 1, true⟩).1.getLast?).map (fun e => e.stage) = some .error) :=
  C3_nonzero_exit "s".toList "https://soundcloud.com/a/sets/b".toList "p".toList
    ⟨0, "t".toList, [], 1, ⟨fun _ => false, []⟩⟩ ⟨[], 1, true⟩
    (by decide) (by decide) (by decide) (by decide) (by decide) (by decide) (by decide)

/-- C3, counterexample: a playlist job whose subprocess exits with code 1
AFTER one track completed resolves successfully (zips and completes); no
error-stage event is published and the promise does not reject — contradicting
the claim that every nonzero exit moves the job to `Error`. -/
theorem C3_counterexample :
    (runPlaylist "s".toList "https://soundcloud.com/a/sets/b".toList "p".toList
      ⟨["[ExtractAudio] Destination: a.mp3".toList], 1, true⟩).2 =
      .ok (pathJoin outputDirDefault ("p".toList ++ zipSuffix), "p".toList ++ zipSuffix) ∧
    ∀ e ∈ (runPlaylist "s".toList "https://soundcloud.com/a/sets/b".toList "p".toList
      ⟨["[ExtractAudio] Destination: a.mp3".toList], 1, true⟩).1, e.stage ≠ .error := by
  constructor
  · rfl
  · decide

/-! ### C7: the download-percentage remap -/

/-- C7 (amended).  A parsed download percentage `p` is published as
`min(10 + 0.7p, 80)` for single tracks, which lies in `[10, 80]` for
`p ∈ [0, 100]`; for playlist items (with a known positive track total and the
chunk matching nothing else) it is published as
`5 + 70·(completedTracks/total + p/100/total)`, which lies in `[5, 75]`
PROVIDED `completedTracks < total`.  The handler does not clamp: once
`completedTracks = total`, a further percentage line publishes a value above
75 (see the counterexample), so the claimed range only holds under that
proviso. -/
theorem C7_progress_remap :
    (∀ (clean : List Char) (st : SingleState) (chunk : List Char) (p : ℚ),
      findDownloadMatch chunk = some p → 0 ≤ p → p ≤ 100 →
        singleStep clean st chunk =
          (st, [⟨.single, .download, min (10 + p * (7 / 10)) 80, .downloading p,
            some clean, none, none⟩]) ∧
        10 ≤ min (10 + p * (7 / 10)) 80 ∧ min (10 + p * (7 / 10)) 80 ≤ 80) ∧
    (∀ (st : PlaylistState) (chunk : List Char) (p : ℚ),
      findDownloadMatch chunk = some p →
      findItemMatch chunk = none →
      findDlDestMatch chunk = none →
      containsSub extractTag chunk = false →
      findDestMatch chunk = none →
      0 < st.totalTracks →
        playlistStep st chunk =
          (st, [⟨.playlist, .download,
            5 + ((st.trackCount : ℚ) / st.totalTracks + p / 100 / st.totalTracks) * 70,
            .downloadingTrack st.currentTrack p, some st.currentTrack, some st.totalTracks,
            some (st.trackCount : Int)⟩]) ∧
        (0 ≤ p → p ≤ 100 → st.trackCount < st.totalTracks →
          5 ≤ 5 + ((st.trackCount : ℚ) / st.totalTracks + p / 100 / st.totalTracks) * 70 ∧
          5 + ((st.trackCount : ℚ) / st.totalTracks + p / 100 / st.totalTracks) * 70 ≤ 75)) := by
  constructor
  · intro clean st chunk p hmatch h0 h100
    refine ⟨?_, ?_, min_le_right _ _⟩
    · unfold singleStep
      rw [hmatch]
    · refine le_min ?_ (by norm_num)
      have : 0 ≤ p * (7 / 10) := mul_nonneg h0 (by norm_num)
      linarith
  · intro st chunk p hmatch hitem hdl hext hdest htot
    constructor
    · have hcond : ¬(containsSub extractTag chunk = true ∧ st.isConverting = false) := by
        rw [hext]
        exact fun hcon => Bool.false_ne_true hcon.1
      simp only [playlistStep, hitem, hdl, hmatch, hdest]
      rw [if_neg hcond, if_pos htot]
      simp
    · intro h0 h100 hcnt
      have hT : (0 : ℚ) < (st.totalTracks : ℚ) := by exact_mod_cast htot
      have hx0 : 0 ≤ (st.trackCount : ℚ) / st.totalTracks + p / 100 / st.totalTracks := by
        have h1 : 0 ≤ (st.trackCount : ℚ) / st.totalTracks :=
          div_nonneg (Nat.cast_nonneg _) (le_of_lt hT)
        have h2 : 0 ≤ p / 100 / (st.totalTracks : ℚ) :=
          div_nonneg (div_nonneg h0 (by norm_num)) (le_of_lt hT)
        linarith
      have hx1 : (st.trackCount : ℚ) / st.totalTracks + p / 100 / st.totalTracks ≤ 1 := by
        rw [div_add_div_same, div_le_one hT]
        have hc1 : (st.trackCount : ℚ) + 1 ≤ (st.totalTracks : ℚ) := by
          exact_mod_cast Nat.succ_le_of_lt hcnt
        have hp1 : p / 100 ≤ 1 := by
          rw [div_le_one (by norm_num : (0:ℚ) < 100)]
          exact h100
        linarith
      constructor <;> nlinarith

/-- Witness for C7 at a concrete chunk (`p = 50`), single state and a playlist
state with 0 completed of 2 total. -/
theorem C7_witness :
    (singleStep "t".toList ⟨[], false⟩ "[download] 50% of x".toList =
      (⟨[], false⟩,
       [⟨.single, .download, min (10 + ((50:ℕ):ℚ) * (7 / 10)) 80, .downloading ((50:ℕ):ℚ),
         some "t".toList, none, none⟩]) ∧
      10 ≤ min (10 + ((50:ℕ):ℚ) * (7 / 10)) 80 ∧ min (10 + ((50:ℕ):ℚ) * (7 / 10)) 80 ≤ 80) ∧
    (playlistStep ⟨0, 2, [], false⟩ "[download] 50% of x".toList =
      (⟨0, 2, [], false⟩, [⟨.playlist, .download,
        5 + (((0:ℕ):ℚ) / ((2:ℕ):ℚ) + ((50:ℕ):ℚ) / 100 / ((2:ℕ):ℚ)) * 70,
        .downloadingTrack [] ((50:ℕ):ℚ), some [], some 2, some ((0:ℕ):Int)⟩])) ∧
    (5 ≤ 5 + (((0:ℕ):ℚ) / ((2:ℕ):ℚ) + ((50:ℕ):ℚ) / 100 / ((2:ℕ):ℚ)) * 70 ∧
      5 + (((0:ℕ):ℚ) / ((2:ℕ):ℚ) + ((50:ℕ):ℚ) / 100 / ((2:ℕ):ℚ)) * 70 ≤ 75) :=
  ⟨C7_progress_remap.1 "t".toList ⟨[], false⟩ "[download] 50% of x".toList ((50:ℕ):ℚ)
      (by decide) (by decide) (by decide),
   (C7_progress_remap.2 ⟨0, 2, [], false⟩ "[download] 50% of x".toList ((50:ℕ):ℚ)
      (by decide) (by decide) (by decide) (by decide) (by decide) (by decide)).1,
   (C7_progress_remap.2 ⟨0, 2, [], false⟩ "[download] 50% of x".toList ((50:ℕ):ℚ)
      (by decide) (by decide) (by decide) (by decide) (by decide) (by decide)).2
     (by decide) (by decide) (by decide)⟩

/-- C7, counterexample to the claimed playlist range: starting from the
initial state, the output "item 1 of 1", a completed conversion, and then one
more percentage line (`p = 50 ∈ [0,100]`) publishes
`5 + 70·(1/1 + 50/100/1) = 110 > 75` — the handler does not clamp once
`completedTracks` has reached the total. -/
theorem C7_counterexample :
    findDownloadMatch "[download] 50%".toList = some ((50:ℕ):ℚ) ∧
    ((playlistRunChunks ⟨0, 0, [], false⟩
        ["[download] Downloading item 1 of 1".toList,
         "[ExtractAudio] Destination: a.mp3".toList,
         "[download] 50%".toList]).2.map (fun e => e.progress)).getLast? =
      some (5 + (((1:ℕ):ℚ) / ((1:ℕ):ℚ) + ((50:ℕ):ℚ) / 100 / ((1:ℕ):ℚ)) * 70) ∧
    ¬(5 + (((1:ℕ):ℚ) / ((1:ℕ):ℚ) + ((50:ℕ):ℚ) / 100 / ((1:ℕ):ℚ)) * 70 ≤ 75) :=
  ⟨by decide, rfl, by norm_num⟩

/-! ### C4: monotone progress for canonical single-track runs -/

theorem head?_mem_gen {α : Type} {c : α} {l : List α} (h : l.head? = some c) : c ∈ l := by
  cases l with
  | nil => simp at h
  | cons a t =>
    rw [List.head?_cons, Option.some.injEq] at h
    exact h ▸ List.mem_cons_self _ _

theorem getLast?_mem_gen {α : Type} {c : α} {l : List α} (h : l.getLast? = some c) : c ∈ l := by
  rw [← List.head?_reverse] at h
  exact List.mem_reverse.mp (head?_mem_gen h)

theorem percentAfter_nonneg {s : List Char} {p : ℚ} (h : percentAfter s = some p) : 0 ≤ p := by
  unfold percentAfter at h
  by_cases h1 : (s.takeWhile jsIsSpace).isEmpty
  · rw [if_pos h1] at h
    exact absurd h (by simp)
  · rw [if_neg h1] at h
    by_cases h2 : ((s.dropWhile jsIsSpace).takeWhile Char.isDigit).isEmpty
    · rw [if_pos h2] at h
      exact absurd h (by simp)
    · rw [if_neg h2] at h
      split at h
      · rename_i s3 heq
        dsimp only [] at h
        by_cases h3 : (s3.takeWhile Char.isDigit).isEmpty = true
        · rw [if_pos h3] at h
          exact absurd h (by simp)
        · rw [if_neg h3] at h
          split at h
          · injection h with h'
            rw [← h']
            positivity
          · exact absurd h (by simp)
      · injection h with h'
        rw [← h']
        positivity
      · exact absurd h (by simp)

theorem findDownloadMatch_nonneg {c : List Char} {p : ℚ} :
    findDownloadMatch c = some p → 0 ≤ p := by
  induction c with
  | nil => intro h; simp [findDownloadMatch] at h
  | cons d rest ih =>
    intro h
    unfold findDownloadMatch at h
    split at h
    · rename_i q heq
      injection h with h'
      rw [← h']
      by_cases hpre : dlTag.isPrefixOf (d :: rest) = true
      · rw [if_pos hpre] at heq
        exact percentAfter_nonneg heq
      · rw [if_neg hpre] at heq
        exact absurd heq (by simp)
    · exact ih h

theorem dest_needs_extract {c x : List Char} (h : findDestMatch c = some x) :
    containsSub extractTag c = true := by
  induction c with
  | nil => simp [findDestMatch] at h
  | cons d rest ih =>
    unfold findDestMatch at h
    by_cases hpre : extractDestTag.isPrefixOf (d :: rest) = true
    · have hpre2 : extractTag.isPrefixOf (d :: rest) = true := by
        obtain ⟨t, ht⟩ := List.isPrefixOf_iff_prefix.mp hpre
        refine List.isPrefixOf_iff_prefix.mpr ⟨" Destination: ".toList ++ t, ?_⟩
        rw [← ht]
        rfl
      unfold containsSub
      rw [hpre2]
      rfl
    · rw [if_neg hpre] at h
      have hrest : containsSub extractTag rest = true := ih h
      unfold containsSub
      rw [hrest, Bool.or_true]

theorem singleRun_append (clean : List Char) (A : List (List Char)) :
    ∀ (st : SingleState) (B : List (List Char)),
      singleRunChunks clean st (A ++ B) =
        ((singleRunChunks clean (singleRunChunks clean st A).1 B).1,
         (singleRunChunks clean st A).2 ++
           (singleRunChunks clean (singleRunChunks clean st A).1 B).2) := by
  induction A with
  | nil => intro st B; rfl
  | cons c t ih =>
    intro st B
    simp only [List.cons_append, singleRunChunks]
    simp only [List.append_eq]
    rw [ih]
    simp [singleRunChunks, List.append_assoc]

theorem singleRun_perc_silent (clean : List Char) (A : List (List Char)) :
    ∀ st : SingleState, (∀ c ∈ A, (findDownloadMatch c).isSome ∨ silentChunk c) →
      (singleRunChunks clean st A).1 = st ∧
      (singleRunChunks clean st A).2.map (fun e => e.progress) =
        (A.filterMap findDownloadMatch).map (fun p => min (10 + p * (7 / 10)) 80) := by
  induction A with
  | nil => exact fun st _ => ⟨rfl, rfl⟩
  | cons c t ih =>
    intro st hA
    have hc := hA c (List.mem_cons_self _ _)
    have ht := fun x hx => hA x (List.mem_cons_of_mem _ hx)
    obtain ⟨ih1, ih2⟩ := ih st ht
    rcases hc with hperc | hsil
    · obtain ⟨p, hp⟩ := Option.isSome_iff_exists.mp hperc
      have hstep : singleStep clean st c =
          (st, [⟨.single, .download, min (10 + p * (7 / 10)) 80, .downloading p,
            some clean, none, none⟩]) := by
        unfold singleStep
        rw [hp]
      have hcons : singleRunChunks clean st (c :: t) =
          ((singleRunChunks clean st t).1,
           [⟨.single, .download, min (10 + p * (7 / 10)) 80, .downloading p,
             some clean, none, none⟩] ++ (singleRunChunks clean st t).2) := by
        simp only [singleRunChunks, hstep]
      rw [hcons]
      refine ⟨ih1, ?_⟩
      simp only [List.map_append, ih2, List.filterMap_cons, hp, List.map_cons]
      rfl
    · have hdest : findDestMatch c = none := by
        rcases hdm : findDestMatch c with _ | y
        · rfl
        · exact absurd (dest_needs_extract hdm) (by rw [hsil.2.1]; exact Bool.false_ne_true)
      have hstep : singleStep clean st c = (st, []) := by
        unfold singleStep
        rw [hsil.1]
        rw [if_neg (fun hcon => Bool.false_ne_true (hsil.2.1 ▸ hcon.1))]
        rw [hdest]
        rw [if_neg (by rw [hsil.2.2]; exact Bool.false_ne_true)]
      have hcons : singleRunChunks clean st (c :: t) =
          ((singleRunChunks clean st t).1, [] ++ (singleRunChunks clean st t).2) := by
        simp only [singleRunChunks, hstep]
      rw [hcons]
      refine ⟨ih1, ?_⟩
      simp only [List.nil_append, ih2, List.filterMap_cons, hsil.1]

theorem convChunk_step (clean fp : List Char) {cv : List Char} (hcv : convChunk cv) :
    singleStep clean ⟨fp, false⟩ cv =
      (⟨fp, true⟩, [⟨.single, .convert, 85, .converting, some clean, none, none⟩]) := by
  unfold singleStep
  rw [hcv.1]
  rw [if_pos ⟨hcv.2, rfl⟩]

theorem delChunk_step (clean : List Char) (st : SingleState) {dl : List Char}
    (hdl : delChunk dl) :
    singleStep clean st dl =
      (st, [⟨.single, .complete, 100, .downloadCompleted, some clean, none, none⟩]) := by
  have hdest : findDestMatch dl = none := by
    rcases hdm : findDestMatch dl with _ | y
    · rfl
    · exact absurd (dest_needs_extract hdm) (by rw [hdl.2.1]; exact Bool.false_ne_true)
  unfold singleStep
  rw [hdl.1]
  rw [if_neg (fun hcon => Bool.false_ne_true (hdl.2.1 ▸ hcon.1))]
  rw [hdest]
  rw [if_pos hdl.2.2]

theorem chain_assemble (Amap Bmap : List ℚ)
    (hAchain : List.Chain' (fun a b : ℚ => a ≤ b) Amap)
    (hAbound : ∀ q ∈ Amap, 10 ≤ q ∧ q ≤ 80)
    (hB : Bmap = [] ∨ Bmap = [85] ∨ Bmap = [85, 100]) :
    List.Chain' (fun a b : ℚ => a ≤ b) (0 :: 10 :: (Amap ++ (Bmap ++ [100]))) := by
  have htail : List.Chain' (fun a b : ℚ => a ≤ b) (Bmap ++ [100]) ∧
      (∀ y ∈ (Bmap ++ [100]).head?, (10 : ℚ) ≤ y) ∧
      (∀ y ∈ (Bmap ++ [100]).head?, (80 : ℚ) ≤ y) := by
    rcases hB with h | h | h <;> subst h
    · refine ⟨List.chain'_singleton _, ?_, ?_⟩ <;>
        (intro y hy; simp only [List.nil_append, List.head?_cons, Option.mem_def,
          Option.some.injEq] at hy; rw [← hy]; norm_num)
    · refine ⟨List.chain'_cons.mpr ⟨by norm_num, List.chain'_singleton _⟩, ?_, ?_⟩ <;>
        (intro y hy; simp only [List.cons_append, List.head?_cons, Option.mem_def,
          Option.some.injEq] at hy; rw [← hy]; norm_num)
    · refine ⟨List.chain'_cons.mpr ⟨by norm_num,
        List.chain'_cons.mpr ⟨by norm_num, List.chain'_singleton _⟩⟩, ?_, ?_⟩ <;>
        (intro y hy; simp only [List.cons_append, List.head?_cons, Option.mem_def,
          Option.some.injEq] at hy; rw [← hy]; norm_num)
  have hmid : List.Chain' (fun a b : ℚ => a ≤ b) (Amap ++ (Bmap ++ [100])) := by
    rw [List.chain'_append]
    refine ⟨hAchain, htail.1, ?_⟩
    intro x hx y hy
    exact le_trans (hAbound x (getLast?_mem_gen hx)).2 (htail.2.2 y hy)
  refine List.chain'_cons.mpr ⟨by norm_num, ?_⟩
  refine List.chain'_cons'.mpr ⟨?_, hmid⟩
  intro y hy
  cases Amap with
  | nil => exact htail.2.1 y (by simpa using hy)
  | cons a t =>
    have hya : a = y := by simpa using hy
    rw [← hya]
    exact (hAbound a (List.mem_cons_self _ _)).1

/-- C4 (amended).  For a single job whose subprocess output has the canonical
shape — a run of percentage/silent chunks with NON-DECREASING parsed
percentages, followed by at most one conversion chunk and one deletion chunk —
and which succeeds (both exits 0), the published progress values are
non-decreasing from one event to the next.  The handler itself does not clamp
or enforce monotonicity: percentages that decrease in the subprocess output
republish as decreasing progress (see the counterexample), and a failing job
publishes an error event that resets progress to 0, so the claim as stated
(for every run) is false. -/
theorem C4_progress_monotone (sid url : List Char) (env : DownloadEnv)
    (A B : List (List Char))
    (hchunks : env.chunks = A ++ B)
    (hurl : isValidSoundCloudUrl url = true)
    (hinfo : env.infoExit = 0)
    (hexit : env.exitCode = 0)
    (hA : ∀ c ∈ A, (findDownloadMatch c).isSome ∨ silentChunk c)
    (hps : List.Chain' (fun a b : ℚ => a ≤ b) (A.filterMap findDownloadMatch))
    (hB : canonicalTail B) :
    List.Chain' (fun a b : ℚ => a ≤ b)
      ((runDownload sid url env).1.map (fun e => e.progress)) := by
  unfold runDownload
  rw [if_neg (by rw [hurl]; exact fun hcon => Bool.true_eq_false ▸ hcon ▸ rfl)]
  rw [if_neg (by rw [hinfo]; exact fun hcon => hcon rfl)]
  rw [if_pos hexit]
  unfold publish
  by_cases hsid : sid = []
  · rw [if_pos hsid]
    simp
  · rw [if_neg hsid]
    rw [hchunks, singleRun_append]
    obtain ⟨hst, hmap⟩ :=
      singleRun_perc_silent (sanitizeFilename env.trackInfo) A ⟨[], false⟩ hA
    rw [hst]
    have hAchain : List.Chain' (fun a b : ℚ => a ≤ b)
        ((A.filterMap findDownloadMatch).map (fun p => min (10 + p * (7 / 10)) 80)) := by
      rw [List.chain'_map]
      refine hps.imp ?_
      intro a b hab
      exact min_le_min (by nlinarith) (le_refl _)
    have hAbound : ∀ q ∈ (A.filterMap findDownloadMatch).map
        (fun p => min (10 + p * (7 / 10)) 80), 10 ≤ q ∧ q ≤ 80 := by
      intro q hq
      obtain ⟨p, hpmem, rfl⟩ := List.mem_map.mp hq
      obtain ⟨c, _, hc⟩ := List.mem_filterMap.mp hpmem
      have hp0 : 0 ≤ p := findDownloadMatch_nonneg hc
      exact ⟨le_min (by nlinarith) (by norm_num), min_le_right _ _⟩
    rcases hB with hBe | ⟨cv, hBe, hcv⟩ | ⟨cv, dl, hBe, hcv, hdl⟩ <;> subst hBe
    · have hBev : (singleRunChunks (sanitizeFilename env.trackInfo) ⟨[], false⟩
          ([] : List (List Char))).2 = [] := rfl
      rw [hBev]
      have := chain_assemble _ [] hAchain hAbound (Or.inl rfl)
      simpa [List.map_append, hmap] using this
    · have hBev : (singleRunChunks (sanitizeFilename env.trackInfo) ⟨[], false⟩ [cv]).2 =
          [⟨.single, .convert, 85, .converting, some (sanitizeFilename env.trackInfo),
            none, none⟩] := by
        simp only [singleRunChunks, convChunk_step (sanitizeFilename env.trackInfo) [] hcv]
        rfl
      rw [hBev]
      have := chain_assemble _ [85] hAchain hAbound (Or.inr (Or.inl rfl))
      simpa [List.map_append, hmap] using this
    · have hBev : (singleRunChunks (sanitizeFilename env.trackInfo) ⟨[], false⟩ [cv, dl]).2 =
          [⟨.single, .convert, 85, .converting, some (sanitizeFilename env.trackInfo),
            none, none⟩,
           ⟨.single, .complete, 100, .downloadCompleted, some (sanitizeFilename env.trackInfo),
            none, none⟩] := by
        simp only [singleRunChunks, convChunk_step (sanitizeFilename env.trackInfo) [] hcv]
        simp only [delChunk_step (sanitizeFilename env.trackInfo) _ hdl]
        rfl
      rw [hBev]
      have := chain_assemble _ [85, 100] hAchain hAbound (Or.inr (Or.inr rfl))
      simpa [List.map_append, hmap] using this

/-- Witness for C4: a canonical run — one percentage chunk (10%), the
conversion destination line, the deletion line — publishes non-decreasing
progress. -/
theorem C4_witness :
    isValidSoundCloudUrl "https://soundcloud.com/a".toList = true ∧
    List.Chain' (fun a b : ℚ => a ≤ b)
      ((runDownload "s".toList "https://soundcloud.com/a".toList
        ⟨0, "t".toList,
         ["[download] 10%".toList, "[ExtractAudio] Destination: x.mp3".toList,
          "Deleting original file x.webm".toList], 0, ⟨fun _ => false, []⟩⟩).1.map
        (fun e => e.progress)) :=
  ⟨by decide,
   C4_progress_monotone "s".toList "https://soundcloud.com/a".toList
     ⟨0, "t".toList,
      ["[download] 10%".toList, "[ExtractAudio] Destination: x.mp3".toList,
       "Deleting original file x.webm".toList], 0, ⟨fun _ => false, []⟩⟩
     ["[download] 10%".toList]
     ["[ExtractAudio] Destination: x.mp3".toList, "Deleting original file x.webm".toList]
     rfl (by decide) rfl rfl (by decide) (List.chain'_singleton _)
     (Or.inr (Or.inr ⟨_, _, rfl, by decide, by decide⟩))⟩

/-- C4, counterexample: the subprocess reports 50% and then 10% (as yt-dlp
can, e.g. across fragments); the handler republishes both without clamping,
so the published progress sequence 0, 10, 45, 17, 100 regresses. -/
theorem C4_counterexample :
    ¬ List.Chain' (fun a b : ℚ => a ≤ b)
      ((runDownload "s".toList "https://soundcloud.com/a".toList
        ⟨0, "t".toList, ["[download] 50%".toList, "[download] 10%".toList], 0,
         ⟨fun _ => false, []⟩⟩).1.map (fun e => e.progress)) := by
  intro h
  have ht : (runDownload "s".toList "https://soundcloud.com/a".toList
      ⟨0, "t".toList, ["[download] 50%".toList, "[download] 10%".toList], 0,
       ⟨fun _ => false, []⟩⟩).1.map (fun e => e.progress) =
      [0, 10, min (10 + ((50:ℕ):ℚ) * (7 / 10)) 80, min (10 + ((10:ℕ):ℚ) * (7 / 10)) 80, 100] :=
    rfl
  rw [ht] at h
  have h3 := (List.chain'_cons.mp (List.chain'_cons.mp h).2).2
  have h4 := (List.chain'_cons.mp h3).1
  norm_num [min_def] at h4
